import Mathlib

/-!
Verification development for the wikisearch clustering toolset
(`toolset.py`, `toolset/clustering.py`).

The Python source is shallowly embedded: document vectors become lists of
elements of a linear ordered field (exact rational arithmetic `ℚ` where the
source computes with floating point field operations only, `ℝ` where square
roots appear), fallible operations return `Except`, and the calls into
scikit-learn / NLTK are modelled at the level of those libraries' documented
behaviour (each such model carries a doc comment naming the routine it
models).
-/

namespace WS

/-- A document vector: one row of the (possibly reduced) feature matrix. -/
abbrev Vec (α : Type) := List α

variable {α : Type} [LinearOrderedField α]

/-- Squared Euclidean distance between two vectors (componentwise, over the
common prefix; all rows of one matrix share a length, so the truncation by
`zip` is never exercised on rectangular input). -/
def sqDist (x y : Vec α) : α :=
  ((x.zip y).map (fun p => (p.1 - p.2) * (p.1 - p.2))).sum

/-- Componentwise sum of two vectors. -/
def vecAdd (x y : Vec α) : Vec α :=
  (x.zip y).map (fun p => p.1 + p.2)

/-- Scale a vector by a field element. -/
def vecScale (c : α) (x : Vec α) : Vec α :=
  x.map (fun v => c * v)

/-- Sum of a list of vectors. -/
def vecSum : List (Vec α) → Vec α
  | [] => []
  | [x] => x
  | x :: xs => vecAdd x (vecSum xs)

/-- Mean of a list of vectors (used for the k-means centroid update). -/
def vecMean (l : List (Vec α)) : Vec α :=
  vecScale (1 / (l.length : α)) (vecSum l)

/-- Index of the nearest centre: accumulator pass tracking the best index and
its distance.  Ties keep the earlier index, as `numpy.argmin` does in
scikit-learn's assignment step. -/
def nearestIdxAux (x : Vec α) : List (Vec α) → Nat → Nat → α → Nat
  | [], _, best, _ => best
  | c :: rest, i, best, bestd =>
    if sqDist x c < bestd then nearestIdxAux x rest (i + 1) i (sqDist x c)
    else nearestIdxAux x rest (i + 1) best bestd

/-- Index of the centre of `cs` nearest to `x` (0 on the empty list, which the
guarded entry points never pass). -/
def nearestIdx (cs : List (Vec α)) (x : Vec α) : Nat :=
  match cs with
  | [] => 0
  | c :: rest => nearestIdxAux x rest 1 0 (sqDist x c)

/-- k-means assignment step: each row is labelled with its nearest centre. -/
def assignLabels (cs : List (Vec α)) (X : List (Vec α)) : List Nat :=
  X.map (nearestIdx cs)

/-- The rows of `X` whose label equals `j`. -/
def clusterMembers (X : List (Vec α)) (labels : List Nat) (j : Nat) : List (Vec α) :=
  ((labels.zip X).filter (fun p => p.1 == j)).map Prod.snd

/-- One Lloyd iteration: assign each row to its nearest centre and recompute
each centre as the mean of its members.  A centre whose cluster came out
empty is kept unchanged (scikit-learn instead relocates it; either way the
number of centres is preserved, which is the only fact the claims use). -/
def lloydStep (X cs : List (Vec α)) : List (Vec α) :=
  let labels := assignLabels cs X
  (List.range cs.length).map (fun j =>
    let members := clusterMembers X labels j
    if members.isEmpty then cs.getD j [] else vecMean members)

/-- Bounded Lloyd iteration with the convergence stop of `KMeans.fit`
(iteration ends early when the centres do not move). -/
def lloydIter : Nat → List (Vec α) → List (Vec α) → List (Vec α)
  | 0, _, cs => cs
  | n + 1, X, cs =>
    let cs' := lloydStep X cs
    if cs' = cs then cs else lloydIter n X cs'

/-- A fitted k-means model: `cluster_centers_` and `labels_` of
`sklearn.cluster.KMeans`. -/
structure KModel (α : Type) where
  cluster_centers : List (Vec α)
  labels : List Nat
deriving DecidableEq

/-- The failure conditions surfaced by the clustering stages (all of them are
`ValueError`s of the underlying scikit-learn calls). -/
inductive ClusterError where
  /-- `KMeans.fit`: "n_samples=%d should be >= n_clusters=%d". -/
  | tooFewSamples
  /-- a nonpositive cluster count, or cutting more clusters than samples. -/
  | invalidClusterCount
  /-- `TruncatedSVD`: "n_components must be < n_features". -/
  | invalidDimensionality
  /-- an empty input matrix rejected by `check_array`. -/
  | emptyInput
deriving DecidableEq

/-- The unguarded body of `KMeans(n_clusters, init='k-means++', n_init=1,
max_iter=10).fit(X)`: the randomized k-means++ seeding is modelled by a
deterministic choice of `n_clusters` input rows (the structural facts proved
below hold for every choice of `n_clusters` initial centres), followed by at
most 10 Lloyd iterations. -/
def kmeansRun (n_clusters : Nat) (X : List (Vec α)) : KModel α :=
  let cs := lloydIter 10 X (X.take n_clusters)
  ⟨cs, assignLabels cs X⟩

/-- Models `KMeans(n_clusters, init='k-means++', n_init=1, max_iter=10).fit`,
including its validation: scikit-learn raises `ValueError` when the sample
count is below `n_clusters` (and rejects a nonpositive cluster count). -/
def kmeansFit (n_clusters : Nat) (X : List (Vec α)) : Except ClusterError (KModel α) :=
  if n_clusters = 0 then .error .invalidClusterCount
  else if X.length < n_clusters then .error .tooFewSamples
  else .ok (kmeansRun n_clusters X)

/-- The two fitted layers returned by `ClusterMaker.kmeans` (the method
returns `layer2_kmodel` and pickles `layer1_kmodel`; both are part of the
result of the operation). -/
structure TwoLayerResult (α : Type) where
  layer1 : KModel α
  layer2 : KModel α
deriving DecidableEq

/-- The clustering part of `ClusterMaker.kmeans` (clustering.py:161-170):
fit `KMeans(n_clusters=100, ...)` on the matrix, then fit
`KMeans(n_clusters=self.n_clusters, ...)` on the layer-1 cluster centres.
The layer-1 cluster count is the hardcoded literal `100` from the source. -/
def kmeansCluster (n_clusters : Nat) (X : List (Vec α)) :
    Except ClusterError (TwoLayerResult α) := do
  let layer1 ← kmeansFit 100 X
  let layer2 ← kmeansFit n_clusters layer1.cluster_centers
  pure ⟨layer1, layer2⟩

/-- The composed per-document label described by the spec: document `i`'s
final label is its layer-1 cluster's layer-2 label. -/
def composedLabels (r : TwoLayerResult α) : List Nat :=
  r.layer1.labels.map (fun j => r.layer2.labels.getD j 0)

/-- A concrete 100-row, 1-column rational matrix used by witnesses. -/
def X100 : List (Vec ℚ) := List.replicate 100 [1]

/-- A concrete 5-row rational matrix (fewer rows than the hardcoded layer-1
cluster count). -/
def X5 : List (Vec ℚ) := [[0], [1], [2], [3], [4]]

/-- A live cluster during agglomerative merging: its dendrogram node id, its
member count and the componentwise sum of its member rows (its centroid is
`total / size`). -/
structure HacCluster (α : Type) where
  id : Nat
  size : Nat
  total : Vec α
deriving DecidableEq

/-- Centroid of a live cluster. -/
def HacCluster.centroid (c : HacCluster α) : Vec α :=
  vecScale (1 / (c.size : α)) c.total

/-- Ward linkage cost of merging `a` and `b`: the increase in within-cluster
variance, `|A||B| / (|A|+|B|) * dist(c_A, c_B)²`. -/
def wardDist (a b : HacCluster α) : α :=
  ((a.size : α) * (b.size : α) / ((a.size : α) + (b.size : α))) *
    sqDist a.centroid b.centroid

/-- All unordered pairs of elements of a list, each pair once. -/
def allPairsList {β : Type} : List β → List (β × β)
  | [] => []
  | x :: xs => xs.map (fun y => (x, y)) ++ allPairsList xs

/-- First minimiser of `key` in a list (`none` on the empty list). -/
def argminBy {β : Type} (key : β → α) : List β → Option β
  | [] => none
  | x :: xs => some (xs.foldl (fun b y => if key y < key b then y else b) x)

/-- One merge record of the dendrogram, exactly as `ClusterMaker.hac` emits it
(clustering.py:260-262): `node_id` is the synthetic id of the merged node,
`right` is `children_[i][0]` and `left` is `children_[i][1]`. -/
structure MergeEvent where
  node_id : Nat
  right : Nat
  left : Nat
deriving DecidableEq

/-- All child ids of a merge list, in emission order. -/
def childIds : List MergeEvent → List Nat
  | [] => []
  | m :: ms => m.right :: m.left :: childIds ms

/-- The merged cluster carrying the next fresh node id. -/
def hacMergeOf (next : Nat) (a b : HacCluster α) : HacCluster α :=
  ⟨next, a.size + b.size, vecAdd a.total b.total⟩

/-- The agglomerative merging loop of
`AgglomerativeClustering(linkage='ward')`: while at least two clusters are
live, merge the ward-closest pair and record the merge.  scikit-learn
computes `children_` for the full tree regardless of `n_clusters` (the flat
cut happens afterwards), so the loop always runs down to a single root.
`fuel` is a structural bound on the number of merges. -/
def hacLoop : Nat → Nat → List (HacCluster α) → List MergeEvent → List MergeEvent
  | 0, _, _, ms => ms
  | fuel + 1, next, active, ms =>
    match argminBy (fun p => wardDist p.1 p.2) (allPairsList active) with
    | none => ms
    | some (a, b) =>
      hacLoop fuel (next + 1)
        (((active.erase a).erase b) ++ [hacMergeOf next a b])
        (ms ++ [⟨next, a.id, b.id⟩])

/-- Ward agglomerative clustering run to completion on the rows of `X`:
`X.length` singleton leaves with ids `0..n-1`, merged nodes numbered from
`n` upwards. -/
def hacRun (X : List (Vec α)) : List MergeEvent :=
  hacLoop X.length X.length
    ((List.range X.length).map (fun i => ⟨i, 1, X.getD i []⟩)) []

/-- Loop invariant of `hacLoop` for an `n`-leaf run: the next fresh id counts
the merges so far, every live cluster id is fresh-bounded and unused as a
child, merge `i` created node `n + i` from two strictly older nodes, and no
node has been merged twice. -/
def HacInv (n next : Nat) (active : List (HacCluster α)) (ms : List MergeEvent) : Prop :=
  next = n + ms.length ∧
  active.length + ms.length = n ∧
  (active.map HacCluster.id).Nodup ∧
  (∀ c ∈ active, c.id < next) ∧
  (∀ i (h : i < ms.length), ms[i].node_id = n + i ∧
      ms[i].right < n + i ∧ ms[i].left < n + i) ∧
  (childIds ms).Nodup ∧
  (∀ c ∈ active, c.id ∉ childIds ms) ∧
  (∀ x ∈ childIds ms, x < next)

/-- The merge-tree shape properties claimed for an `n`-leaf dendrogram. -/
def MergeTreeOk (n : Nat) (ms : List MergeEvent) : Prop :=
  ms.length = n - 1 ∧
  (∀ i (h : i < ms.length), ms[i].node_id = n + i ∧
      ms[i].right < n + i ∧ ms[i].left < n + i) ∧
  (childIds ms).Nodup

/-- Sum of squares of a vector's entries. -/
def sumSq (x : Vec α) : α := (x.map (fun v => v * v)).sum

/-- Dot product (componentwise over the common prefix, as in `sqDist`). -/
def dotProd (x y : Vec α) : α := ((x.zip y).map (fun p => p.1 * p.2)).sum

/-- Models scikit-learn `normalize(X, norm='l2')` on one row: divide by the
Euclidean norm, a zero norm being replaced by 1 — so an all-zero row is left
unchanged rather than raising a division error. -/
noncomputable def l2normalizeRow (x : Vec ℝ) : Vec ℝ :=
  x.map (fun v => v / (if Real.sqrt (sumSq x) = 0 then 1 else Real.sqrt (sumSq x)))

/-- Models `sklearn.metrics.pairwise.cosine_similarity` of two rows: the dot
product of the two L2-normalized rows. -/
noncomputable def cosineSimilarity (x y : Vec ℝ) : ℝ :=
  dotProd (l2normalizeRow x) (l2normalizeRow y)

/-- `dist = 1 - cosine_similarity(tfidf_matrix)` (clustering.py:245): the
full pairwise cosine-distance matrix.  Its rows are then fed to the ward
clustering as points, exactly as `hac_model.fit(dist)` does. -/
noncomputable def distMatrix (X : List (Vec ℝ)) : List (Vec ℝ) :=
  X.map (fun xi => X.map (fun xj => 1 - cosineSimilarity xi xj))

/-- Models `ClusterMaker.hac`'s clustering step (clustering.py:244-264):
compute the cosine-distance matrix and fit
`AgglomerativeClustering(linkage='ward', n_clusters)` on it.  scikit-learn
rejects an empty matrix and cutting more clusters than samples; otherwise it
records the full merge tree in `children_`, from which the merge list is
built. -/
noncomputable def hacFit (n_clusters : Nat) (X : List (Vec ℝ)) :
    Except ClusterError (List MergeEvent) :=
  if X.length = 0 then .error .emptyInput
  else if n_clusters = 0 ∨ X.length < n_clusters then .error .invalidClusterCount
  else .ok (hacRun (distMatrix X))

/-- A concrete 3-row real matrix used by the C3 witness. -/
noncomputable def R3 : List (Vec ℝ) := [[1], [2], [3]]

/-- A 3-row real matrix whose first row is all-zero. -/
noncomputable def RZ3 : List (Vec ℝ) := [[0, 0], [1, 0], [0, 1]]

/-- A 4-row real matrix whose first row is all-zero. -/
noncomputable def RZ4 : List (Vec ℝ) := [[0, 0], [2, 0], [0, 3], [1, 1]]

/-- The number of feature columns, `matrix.shape[1]`, read off the first row
(every row of a well-formed matrix has the same length). -/
def nFeatures (X : List (Vec α)) : Nat := (X.headD []).length

/-- Interface for the numeric core of `sklearn.decomposition.TruncatedSVD`
(default `algorithm='randomized'`): a projection producing one row per input
row with `min(d, n_samples)` columns — when `n_components` exceeds the
sample count, the randomized range finder's economic QR caps the basis at
`n_samples` columns and the `U[:, :n_components]` slicing clamps, so the
output is narrower than requested.  The randomized SVD arithmetic itself is
abstracted behind this interface; every fact proved about the LSA stage
holds for an arbitrary `SvdModel`, so nothing proved depends on the
abstracted values. -/
structure SvdModel where
  transform : Nat → List (Vec ℝ) → List (Vec ℝ)
  length_transform : ∀ d X, (transform d X).length = X.length
  width_transform : ∀ d X, ∀ r ∈ transform d X, r.length = min d X.length

/-- Models the LSA stage of `ClusterMaker.kmeans`/`ClusterMaker.hac`
(clustering.py:151-159, 232-241): `make_pipeline(TruncatedSVD(n_dimensions),
Normalizer(copy=False)).fit_transform(matrix)`.  `TruncatedSVD.fit` with the
default randomized algorithm validates only `n_components < n_features` —
the sample count plays no part in the check — and `Normalizer` then
L2-normalizes each resulting row (rows of zero norm are left unchanged). -/
noncomputable def lsaFitTransform (svd : SvdModel) (n_dimensions : Nat)
    (X : List (Vec ℝ)) : Except ClusterError (List (Vec ℝ)) :=
  if nFeatures X ≤ n_dimensions then .error .invalidDimensionality
  else .ok ((svd.transform n_dimensions X).map l2normalizeRow)

/-- An arbitrary inhabitant of the SVD interface, used only to instantiate
instance-independent statements at something concrete. -/
def svdAny : SvdModel where
  transform := fun d X => X.map (fun _ => List.replicate (min d X.length) 0)
  length_transform := by intro d X; simp
  width_transform := by
    intro d X r hr
    simp only [List.mem_map] at hr
    obtain ⟨_, _, rfl⟩ := hr
    simp

/-- A 2-row, 5-column real matrix (`n_documents < n_features`). -/
noncomputable def R2x5 : List (Vec ℝ) := [[1, 0, 0, 0, 0], [0, 1, 0, 0, 0]]

/-- The fixed artifact name hardcoded at clustering.py:147 (and 228): when a
precomputed-matrix path is supplied, the code opens `'tfidf.pkl'`, ignoring
the supplied path value. -/
def tfidfArtifactName : String := "tfidf.pkl"

/-- The matrix-acquisition step shared by `ClusterMaker.kmeans` and
`ClusterMaker.hac` (clustering.py:142-149 and 223-230): with
`tfidf_path=None` the matrix is extracted from the corpus, with any other
value the pickle at the fixed name `'tfidf.pkl'` is loaded from the file
store. -/
def loadOrExtract {β : Type} (fileStore : String → β) (extracted : β) :
    Option String → β
  | none => extracted
  | some _ => fileStore tfidfArtifactName

/-- `ClusterMaker.kmeans` (with `n_dimensions=None`) as a function of the
file store, the matrix the corpus extracts to, the `tfidf_path` argument and
the target cluster count. -/
def kmeansOp (fileStore : String → List (Vec ℚ)) (extracted : List (Vec ℚ))
    (tfidf_path : Option String) (n_clusters : Nat) :
    Except ClusterError (TwoLayerResult ℚ) :=
  kmeansCluster n_clusters (loadOrExtract fileStore extracted tfidf_path)

/-- `ClusterMaker.hac` (with `n_dimensions=None`) as a function of the same
inputs. -/
noncomputable def hacOp (fileStore : String → List (Vec ℝ))
    (extracted : List (Vec ℝ)) (tfidf_path : Option String) (n_clusters : Nat) :
    Except ClusterError (List MergeEvent) :=
  hacFit n_clusters (loadOrExtract fileStore extracted tfidf_path)

/-- The ASCII case-mapping table: uppercase letters paired with their
lowercase forms. -/
def upperLowerTable : List (Char × Char) :=
  "ABCDEFGHIJKLMNOPQRSTUVWXYZ".data.zip "abcdefghijklmnopqrstuvwxyz".data

/-- Models Python `str.lower` on the ASCII letters (the only characters the
token filter inspects); case mapping outside ASCII is outside the model. -/
def pyLowerChar (c : Char) : Char :=
  match upperLowerTable.find? (fun p => p.1 == c) with
  | some p => p.2
  | none => c

/-- `word.lower()` character by character. -/
def pyLower (s : String) : String := ⟨s.data.map pyLowerChar⟩

/-- Models the regex test `re.search('[a-zA-Z]', token)` on one character. -/
def isAsciiAlpha (c : Char) : Bool :=
  ('a' ≤ c && c ≤ 'z') || ('A' ≤ c && c ≤ 'Z')

/-- `True` iff the token contains at least one ASCII letter
(clustering.py:33). -/
def containsAlpha (s : String) : Bool := s.data.any isAsciiAlpha

/-- `tokenize` (clustering.py:17-35), parametrized by models of
`nltk.sent_tokenize` and `nltk.word_tokenize` (statistical segmenters whose
output the function treats opaquely): flatten the per-sentence word lists in
order, lowercase every word, and keep only the words containing at least one
ASCII letter. -/
def tokenize (sentTok wordTok : String → List String) (text : String) :
    List String :=
  (((sentTok text).map wordTok).flatten.map pyLower).filter containsAlpha

/-- Splits a character list at a separator (a simple executable stand-in for
the NLTK segmenters, used to instantiate the parametric theorems). -/
def splitChars (sep : Char) : List Char → List Char → List (List Char)
  | [], acc => [acc.reverse]
  | c :: cs, acc =>
    if c = sep then acc.reverse :: splitChars sep cs []
    else splitChars sep cs (c :: acc)

/-- A concrete sentence segmenter standing in for `nltk.sent_tokenize`. -/
def sentSplit (text : String) : List String :=
  (splitChars '.' text.data []).map (fun l => (⟨l⟩ : String))

/-- A concrete word segmenter standing in for `nltk.word_tokenize`. -/
def wordSplit (s : String) : List String :=
  ((splitChars ' ' s.data []).map (fun l => (⟨l⟩ : String))).filter
    (fun w => w ≠ "")

/-!
Model of `nltk.stem.snowball.SnowballStemmer('english')` (clustering.py:49),
i.e. the Snowball English ("Porter2") stemming algorithm, which NLTK
implements.  Region bookkeeping follows the canonical position-based
formulation of the algorithm: `p1`/`p2` are the start positions of R1/R2 in
the prepared word, and a suffix of length `n` of the current word `w` "lies
in" a region iff it starts at or after that position.  Words are handled as
character lists; the ASCII apostrophe is written `Char.ofNat 39`.
-/

/-- The vowels of the Snowball English algorithm; consonant uses of `y` are
marked as `Y` (not in this list) during preparation. -/
def enVowels : List Char := ['a', 'e', 'i', 'o', 'u', 'y']

/-- Is this character a vowel? -/
def isVowel (c : Char) : Bool := enVowels.contains c

/-- Does the word contain a vowel? -/
def hasVowel (w : List Char) : Bool := w.any isVowel

/-- Does `w` end with `s`? -/
def endsWith (w s : List Char) : Bool := s.isSuffixOf w

/-- Drop `n` characters from the end of the word. -/
def dropLastN (w : List Char) (n : Nat) : List Char := w.take (w.length - n)

/-- Replace the length-`n` suffix of the word by `repl`. -/
def replSuffix (w : List Char) (n : Nat) (repl : List Char) : List Char :=
  dropLastN w n ++ repl

/-- The character `n` positions from the end (`n = 1` is the last one; a
space stands in for an out-of-range access, which every caller guards). -/
def fromEnd (w : List Char) (n : Nat) : Char := w.getD (w.length - n) ' '

/-- A suffix of length `n` of the current word lies in the region beginning
at position `p`. -/
def inRegion (p : Nat) (w : List Char) (n : Nat) : Bool := p + n ≤ w.length

/-- Position right after the first vowel that is followed by a non-vowel
(the word length when there is none): the standard R1/R2 computation. -/
def regionStartAux : List Char → Nat → Bool → Nat
  | [], i, _ => i
  | c :: cs, i, seenV =>
    if seenV && !(isVowel c) then i + 1
    else regionStartAux cs (i + 1) (isVowel c)

/-- Start position of the standard region of a word. -/
def regionStart (w : List Char) : Nat := regionStartAux w 0 false

/-- Mark consonant uses of `y` as `Y`: an initial `y` and any `y` directly
after a vowel (the flag carries whether the previous output character is a
vowel; it starts `true` so that an initial `y` is marked). -/
def markY : Bool → List Char → List Char
  | _, [] => []
  | prevV, c :: cs =>
    let c' := if c = 'y' && prevV then 'Y' else c
    c' :: markY (isVowel c') cs

/-- The word ends in a short syllable: either it is exactly vowel+non-vowel,
or it ends non-vowel, vowel, non-vowel-other-than-`w`/`x`/`Y`. -/
def endsShortSyllable (w : List Char) : Bool :=
  (w.length == 2 && isVowel (fromEnd w 2) && !(isVowel (fromEnd w 1))) ||
  (2 < w.length && !(isVowel (fromEnd w 3)) && isVowel (fromEnd w 2) &&
    !(isVowel (fromEnd w 1)) && !(['w', 'x', 'Y'].contains (fromEnd w 1)))

/-- A short word: R1 is empty and the word ends in a short syllable. -/
def isShortWord (w : List Char) (p1 : Nat) : Bool :=
  w.length ≤ p1 && endsShortSyllable w

/-- The word ends in a doubled `b`/`d`/`f`/`g`/`m`/`n`/`p`/`r`/`t`. -/
def isDoubleEnd (w : List Char) : Bool :=
  2 ≤ w.length && fromEnd w 1 == fromEnd w 2 &&
    ['b', 'd', 'f', 'g', 'm', 'n', 'p', 'r', 't'].contains (fromEnd w 1)

/-- The first suffix of the list (arranged longest first) that the word ends
with. -/
def findSuffix (w : List Char) (sufs : List (List Char)) : Option (List Char) :=
  sufs.find? (fun s => endsWith w s)

/-- The ASCII apostrophe. -/
def apo : Char := Char.ofNat 39

/-- Step 0: strip the longest of `'s'`, `'s`, `'`. -/
def step0 (w : List Char) : List Char :=
  match findSuffix w [[apo, 's', apo], [apo, 's'], [apo]] with
  | some s => dropLastN w s.length
  | none => w

/-- Step 1a: plural-ish endings `sses`, `ied`/`ies`, `us`/`ss` (kept), `s`. -/
def step1a (w : List Char) : List Char :=
  match findSuffix w ["sses".data, "ied".data, "ies".data, "us".data,
      "ss".data, "s".data] with
  | some s =>
    if s = "sses".data then dropLastN w 2
    else if s = "ied".data || s = "ies".data then
      (if 1 < w.length - 3 then dropLastN w 2 else dropLastN w 1)
    else if s = "s".data then
      (if hasVowel (dropLastN w 2) then dropLastN w 1 else w)
    else w
  | none => w

/-- The forms that are left invariant when found after step 1a. -/
def step1aInvariants : List (List Char) :=
  ["inning".data, "outing".data, "canning".data, "herring".data,
   "earring".data, "proceed".data, "exceed".data, "succeed".data]

/-- Step 1b: `eed`/`eedly` to `ee` in R1; `ed`/`edly`/`ing`/`ingly` deleted
when a vowel precedes, with the `at`/`bl`/`iz`, double-consonant and
short-word repairs. -/
def step1b (w : List Char) (p1 : Nat) : List Char :=
  match findSuffix w ["eedly".data, "ingly".data, "edly".data, "ing".data,
      "eed".data, "ed".data] with
  | some s =>
    if s = "eed".data || s = "eedly".data then
      (if inRegion p1 w s.length then replSuffix w s.length "ee".data else w)
    else
      (if hasVowel (dropLastN w s.length) then
        let w' := dropLastN w s.length
        if endsWith w' "at".data || endsWith w' "bl".data || endsWith w' "iz".data then
          w' ++ ['e']
        else if isDoubleEnd w' then dropLastN w' 1
        else if isShortWord w' p1 then w' ++ ['e']
        else w'
      else w)
  | none => w

/-- Step 1c: final `y`/`Y` preceded by a non-vowel that is not the first
letter becomes `i`. -/
def step1c (w : List Char) : List Char :=
  if 2 < w.length && (fromEnd w 1 == 'y' || fromEnd w 1 == 'Y') &&
      !(isVowel (fromEnd w 2)) then
    replSuffix w 1 ['i']
  else w

/-- Step 2: suffix mappings applied when the suffix lies in R1 (longest
match first, as in the NLTK suffix tuples). -/
def step2 (w : List Char) (p1 : Nat) : List Char :=
  match findSuffix w ["ization".data, "ational".data, "fulness".data,
      "ousness".data, "iveness".data, "tional".data, "biliti".data,
      "lessli".data, "entli".data, "ation".data, "alism".data, "aliti".data,
      "ousli".data, "iviti".data, "fulli".data, "enci".data, "anci".data,
      "abli".data, "izer".data, "ator".data, "alli".data, "bli".data,
      "ogi".data, "li".data] with
  | some s =>
    if inRegion p1 w s.length then
      if s = "tional".data then dropLastN w 2
      else if s = "enci".data || s = "anci".data || s = "abli".data then
        replSuffix w 1 ['e']
      else if s = "entli".data then dropLastN w 2
      else if s = "izer".data || s = "ization".data then
        replSuffix w s.length "ize".data
      else if s = "ational".data || s = "ation".data || s = "ator".data then
        replSuffix w s.length "ate".data
      else if s = "alism".data || s = "aliti".data || s = "alli".data then
        replSuffix w s.length "al".data
      else if s = "fulness".data then dropLastN w 4
      else if s = "ousli".data || s = "ousness".data then
        replSuffix w s.length "ous".data
      else if s = "iveness".data || s = "iviti".data then
        replSuffix w s.length "ive".data
      else if s = "biliti".data || s = "bli".data then
        replSuffix w s.length "ble".data
      else if s = "ogi".data then
        (if fromEnd w 4 == 'l' then dropLastN w 1 else w)
      else if s = "fulli".data || s = "lessli".data then dropLastN w 2
      else
        (if ['c', 'd', 'e', 'g', 'h', 'k', 'm', 'n', 'r', 't'].contains
            (fromEnd w 3) then dropLastN w 2
        else w)
    else w
  | none => w

/-- Step 3: suffix mappings in R1 (`ative` additionally requires R2). -/
def step3 (w : List Char) (p1 p2 : Nat) : List Char :=
  match findSuffix w ["ational".data, "tional".data, "alize".data,
      "icate".data, "iciti".data, "ative".data, "ical".data, "ness".data,
      "ful".data] with
  | some s =>
    if inRegion p1 w s.length then
      if s = "tional".data then dropLastN w 2
      else if s = "ational".data then replSuffix w s.length "ate".data
      else if s = "alize".data then dropLastN w 3
      else if s = "icate".data || s = "iciti".data || s = "ical".data then
        replSuffix w s.length "ic".data
      else if s = "ful".data || s = "ness".data then dropLastN w s.length
      else
        (if inRegion p2 w s.length then dropLastN w 5 else w)
    else w
  | none => w

/-- Step 4: generic suffixes deleted in R2 (`ion` needs a preceding `s` or
`t`). -/
def step4 (w : List Char) (p2 : Nat) : List Char :=
  match findSuffix w ["ement".data, "ance".data, "ence".data, "able".data,
      "ible".data, "ment".data, "ant".data, "ent".data, "ism".data,
      "ate".data, "iti".data, "ous".data, "ive".data, "ize".data, "ion".data,
      "al".data, "er".data, "ic".data] with
  | some s =>
    if inRegion p2 w s.length then
      if s = "ion".data then
        (if fromEnd w 4 == 's' || fromEnd w 4 == 't' then dropLastN w 3 else w)
      else dropLastN w s.length
    else w
  | none => w

/-- Step 5: final `e` deleted in R2, or in R1 when not preceded by a short
syllable; final `l` deleted in R2 when doubled. -/
def step5 (w : List Char) (p1 p2 : Nat) : List Char :=
  if fromEnd w 1 == 'e' then
    (if inRegion p2 w 1 then dropLastN w 1
     else if inRegion p1 w 1 && !(endsShortSyllable (dropLastN w 1)) then
       dropLastN w 1
     else w)
  else if fromEnd w 1 == 'l' then
    (if inRegion p2 w 1 && fromEnd w 2 == 'l' then dropLastN w 1 else w)
  else w

/-- The exceptional forms stemmed by table lookup. -/
def specialWords : List (String × String) :=
  [("skis", "ski"), ("skies", "sky"), ("dying", "die"), ("lying", "lie"),
   ("tying", "tie"), ("idly", "idl"), ("gently", "gentl"), ("ugly", "ugli"),
   ("early", "earli"), ("only", "onli"), ("singly", "singl"), ("sky", "sky"),
   ("news", "news"), ("howe", "howe"), ("atlas", "atlas"),
   ("cosmos", "cosmos"), ("bias", "bias"), ("andes", "andes")]

/-- `SnowballStemmer('english').stem` on one token: lowercase, return words
of length at most 2 and the exceptional forms as-is, otherwise prepare the
word (strip a leading apostrophe, mark consonant `y`s, compute the R1/R2
positions) and run steps 0 through 5, finally unmarking `Y`. -/
def snowballStem (token : String) : String :=
  let lw := pyLower token
  if lw.data.length ≤ 2 then lw
  else
    match specialWords.find? (fun p => p.1 == lw) with
    | some p => p.2
    | none =>
      let w1 := lw.data
      let w2 := if w1.headD ' ' = apo then w1.tail else w1
      let w3 := markY true w2
      let p1 :=
        if "gener".data.isPrefixOf w3 || "arsen".data.isPrefixOf w3 then 5
        else if "commun".data.isPrefixOf w3 then 6
        else regionStart w3
      let p2 := p1 + regionStart (w3.drop p1)
      let w4 := step1a (step0 w3)
      if w4 ∈ step1aInvariants then ⟨w4⟩
      else
        let w5 := step5 (step4 (step3 (step2 (step1c (step1b w4 p1)) p1) p1 p2) p2) p1 p2
        ⟨w5.map (fun c => if c = 'Y' then 'y' else c)⟩

/-- `stem` (clustering.py:37-52): stems every entry of a token list with the
English Snowball stemmer. -/
def stem (tokens : List String) : List String := tokens.map snowballStem

theorem X100_length : X100.length = 100 := by
  rw [X100, List.length_replicate]

theorem X5_length : X5.length = 5 := rfl

theorem nearestIdxAux_lt (x : Vec α) (l : List (Vec α)) :
    ∀ (i best : Nat) (d : α) {n : Nat}, best < n → i + l.length ≤ n →
      nearestIdxAux x l i best d < n := by
  induction l with
  | nil => intro i best d n hb _; simpa [nearestIdxAux] using hb
  | cons c rest ih =>
    intro i best d n hb hi
    simp only [List.length_cons] at hi
    simp only [nearestIdxAux]
    split
    · exact ih (i + 1) i _ (by omega) (by omega)
    · exact ih (i + 1) best _ hb (by omega)

theorem nearestIdx_lt (cs : List (Vec α)) (x : Vec α) (h : cs ≠ []) :
    nearestIdx cs x < cs.length := by
  match cs with
  | c :: rest =>
    simpa [nearestIdx] using
      nearestIdxAux_lt x rest 1 0 (sqDist x c) (n := rest.length + 1) (by omega) (by omega)

theorem assignLabels_length (cs X : List (Vec α)) :
    (assignLabels cs X).length = X.length := by
  simp [assignLabels]

theorem assignLabels_lt (cs X : List (Vec α)) (h : cs ≠ []) :
    ∀ l ∈ assignLabels cs X, l < cs.length := by
  intro l hl
  simp only [assignLabels, List.mem_map] at hl
  obtain ⟨x, _, rfl⟩ := hl
  exact nearestIdx_lt cs x h

theorem lloydStep_length (X cs : List (Vec α)) :
    (lloydStep X cs).length = cs.length := by
  simp [lloydStep]

theorem lloydIter_length :
    ∀ (n : Nat) (X cs : List (Vec α)), (lloydIter n X cs).length = cs.length := by
  intro n
  induction n with
  | zero => intro X cs; rfl
  | succ n ih =>
    intro X cs
    simp only [lloydIter]
    split
    · rfl
    · rw [ih, lloydStep_length]

theorem kmeansRun_centers_length {k : Nat} {X : List (Vec α)} (h : k ≤ X.length) :
    (kmeansRun k X).cluster_centers.length = k := by
  simp [kmeansRun, lloydIter_length, List.length_take, Nat.min_eq_left h]

theorem kmeansRun_labels_length (k : Nat) (X : List (Vec α)) :
    (kmeansRun k X).labels.length = X.length := by
  simp [kmeansRun, assignLabels]

theorem kmeansRun_labels_lt {k : Nat} {X : List (Vec α)} (hk : 0 < k) (h : k ≤ X.length) :
    ∀ l ∈ (kmeansRun k X).labels, l < k := by
  intro l hl
  have hlen : (lloydIter 10 X (X.take k)).length = k := by
    rw [lloydIter_length, List.length_take, Nat.min_eq_left h]
  simp only [kmeansRun] at hl
  have hne : lloydIter 10 X (X.take k) ≠ [] := by
    intro he
    rw [he] at hlen
    simp at hlen
    omega
  have := assignLabels_lt _ X hne l hl
  rwa [hlen] at this

theorem kmeansFit_eq_ok {k : Nat} {X : List (Vec α)} (hk : k ≠ 0) (h : ¬ X.length < k) :
    kmeansFit k X = .ok (kmeansRun k X) := by
  simp [kmeansFit, hk, h]

theorem kmeansFit_ok_inv {k : Nat} {X : List (Vec α)} {m : KModel α}
    (h : kmeansFit k X = .ok m) :
    k ≠ 0 ∧ k ≤ X.length ∧ m = kmeansRun k X := by
  by_cases h1 : k = 0
  · simp [kmeansFit, h1] at h
  by_cases h2 : X.length < k
  · simp [kmeansFit, h1, h2] at h
  refine ⟨h1, by omega, ?_⟩
  simp only [kmeansFit, h1, h2, if_false, ite_false] at h
  exact (Except.ok.injEq _ _ ▸ h).symm

theorem kmeansCluster_eq_ok {k : Nat} {X : List (Vec α)}
    (h100 : 100 ≤ X.length) (hk : k ≠ 0) (hk2 : k ≤ 100) :
    kmeansCluster k X =
      .ok ⟨kmeansRun 100 X, kmeansRun k (kmeansRun 100 X).cluster_centers⟩ := by
  have h1 : kmeansFit 100 X = .ok (kmeansRun 100 X) :=
    kmeansFit_eq_ok (by omega) (by omega)
  have hc : (kmeansRun 100 X).cluster_centers.length = 100 :=
    kmeansRun_centers_length (by omega)
  have h2 : kmeansFit k (kmeansRun 100 X).cluster_centers =
      .ok (kmeansRun k (kmeansRun 100 X).cluster_centers) :=
    kmeansFit_eq_ok hk (by rw [hc]; omega)
  simp [kmeansCluster, h1, h2, Bind.bind, Except.bind, pure, Except.pure]

theorem kmeansCluster_ok_inv {k : Nat} {X : List (Vec α)} {r : TwoLayerResult α}
    (h : kmeansCluster k X = .ok r) :
    100 ≤ X.length ∧ k ≠ 0 ∧ k ≤ 100 ∧
      r = ⟨kmeansRun 100 X, kmeansRun k (kmeansRun 100 X).cluster_centers⟩ := by
  cases h1 : kmeansFit 100 X with
  | error e => simp [kmeansCluster, h1, Bind.bind, Except.bind] at h
  | ok m1 =>
    obtain ⟨hk100, hlen, hm1⟩ := kmeansFit_ok_inv h1
    cases h2 : kmeansFit k m1.cluster_centers with
    | error e => simp [kmeansCluster, h1, h2, Bind.bind, Except.bind] at h
    | ok m2 =>
      obtain ⟨hk, hlen2, hm2⟩ := kmeansFit_ok_inv h2
      have hr : r = ⟨m1, m2⟩ := by
        simp [kmeansCluster, h1, h2, Bind.bind, Except.bind, pure, Except.pure] at h
        exact h.symm
      subst hm1
      have hc : (kmeansRun 100 X).cluster_centers.length = 100 :=
        kmeansRun_centers_length hlen
      refine ⟨hlen, hk, by rw [hc] at hlen2; omega, ?_⟩
      rw [hr, hm2]

theorem kmeansCluster_error_of_small {k : Nat} {X : List (Vec α)} (h : X.length < 100) :
    kmeansCluster k X = .error .tooFewSamples := by
  have h1 : kmeansFit 100 X = .error .tooFewSamples := by
    simp [kmeansFit, h]
  simp [kmeansCluster, h1, Bind.bind, Except.bind]

/-- C1: whenever the two-layer k-means operation of `ClusterMaker.kmeans`
returns a result for a matrix and target cluster count `k`, composing each
document's layer-1 label with that layer-1 cluster's layer-2 label yields one
final label per input document, and every such label lies in `0..k-1`. -/
theorem C1_two_layer_composed_labels (X : List (Vec ℚ)) (k : Nat) (r : TwoLayerResult ℚ)
    (h : kmeansCluster k X = .ok r) :
    (composedLabels r).length = X.length ∧ ∀ l ∈ composedLabels r, l < k := by
  obtain ⟨h100, hk, hk100, hr⟩ := kmeansCluster_ok_inv h
  subst hr
  constructor
  · simp [composedLabels, kmeansRun_labels_length]
  · intro l hl
    simp only [composedLabels, List.mem_map] at hl
    obtain ⟨j, hj, rfl⟩ := hl
    have hc : (kmeansRun 100 X).cluster_centers.length = 100 :=
      kmeansRun_centers_length h100
    have hj100 : j < 100 := kmeansRun_labels_lt (by omega) h100 j hj
    have hlab2 :
        (kmeansRun k (kmeansRun 100 X).cluster_centers).labels.length = 100 := by
      rw [kmeansRun_labels_length, hc]
    have hjlt : j < (kmeansRun k (kmeansRun 100 X).cluster_centers).labels.length := by
      rw [hlab2]; exact hj100
    rw [List.getD_eq_getElem _ _ hjlt]
    exact kmeansRun_labels_lt (by omega) (by rw [hc]; omega) _ (List.getElem_mem _)

theorem C1_two_layer_composed_labels_witness :
    (composedLabels
        ⟨kmeansRun 100 X100, kmeansRun 2 (kmeansRun 100 X100).cluster_centers⟩).length
        = X100.length ∧
      ∀ l ∈ composedLabels
          ⟨kmeansRun 100 X100, kmeansRun 2 (kmeansRun 100 X100).cluster_centers⟩,
        l < 2 :=
  C1_two_layer_composed_labels X100 2 _
    (kmeansCluster_eq_ok (by rw [X100_length]) (by omega) (by omega))

/-- C2 counterexample: on a 5-row matrix the claim promises a layer-1
clustering into `min(100, 5) = 5` clusters, but `ClusterMaker.kmeans`
hardcodes `KMeans(n_clusters=100)`, whose sample-count validation rejects the
5-row matrix: the operation fails and produces no layer-1 centroids. -/
theorem C2_layer1_min_counterexample :
    kmeansCluster 2 X5 = .error .tooFewSamples :=
  kmeansCluster_error_of_small (by rw [X5_length]; omega)

/-- C2 amended: layer 1 always runs k-means (k-means++ initialization, single
initialization attempt, iteration bound 10) with the fixed cluster count 100,
not `min(100, n_documents)`: when `n_documents < 100` the operation fails with
the sample-count error instead of clustering into `n_documents` clusters, and
whenever it succeeds layer 1 has exactly 100 centroids. -/
theorem C2_layer1_fixed_100 (X : List (Vec ℚ)) (k : Nat) :
    (X.length < 100 → kmeansCluster k X = .error .tooFewSamples) ∧
      ∀ r, kmeansCluster k X = .ok r → r.layer1.cluster_centers.length = 100 := by
  constructor
  · exact fun h => kmeansCluster_error_of_small h
  · intro r h
    obtain ⟨h100, _, _, hr⟩ := kmeansCluster_ok_inv h
    rw [hr]
    exact kmeansRun_centers_length h100

theorem C2_layer1_fixed_100_witness :
    (⟨kmeansRun 100 X100,
        kmeansRun 2 (kmeansRun 100 X100).cluster_centers⟩ :
      TwoLayerResult ℚ).layer1.cluster_centers.length = 100 :=
  (C2_layer1_fixed_100 X100 2).2 _
    (kmeansCluster_eq_ok (by rw [X100_length]) (by omega) (by omega))

/-- C4 counterexample: the claim says every `k ≥ n_documents` is rejected,
but with `n_documents = k = 100` both layer fits satisfy scikit-learn's
`n_samples >= n_clusters` check (layer 2 is fitted on the 100 layer-1
centroids), so the operation succeeds. -/
theorem C4_k_eq_n_succeeds :
    kmeansCluster 100 X100 =
      .ok ⟨kmeansRun 100 X100, kmeansRun 100 (kmeansRun 100 X100).cluster_centers⟩ :=
  kmeansCluster_eq_ok (by rw [X100_length]) (by omega) (by omega)

/-- C4 amended: the partitional clustering operation succeeds exactly when
`n_documents ≥ 100`, `k ≥ 1` and `k ≤ 100` (the layer-2 fit has exactly 100
samples); invalid parameters, including `k > 100` and the empty matrix, are
rejected by the underlying k-means sample-count validation — one
`ValueError` condition rather than the claim's two distinct ones — and
nothing is silently substituted for them.  `k ≥ n_documents` by itself is not
rejected. -/
theorem C4_validation_characterised (X : List (Vec ℚ)) (k : Nat) :
    ((∃ r, kmeansCluster k X = .ok r) ↔ 100 ≤ X.length ∧ 1 ≤ k ∧ k ≤ 100) ∧
      (X = [] → kmeansCluster k X = .error .tooFewSamples) := by
  constructor
  · constructor
    · rintro ⟨r, h⟩
      obtain ⟨h100, hk, hk2, _⟩ := kmeansCluster_ok_inv h
      exact ⟨h100, by omega, hk2⟩
    · rintro ⟨h100, hk, hk2⟩
      exact ⟨_, kmeansCluster_eq_ok h100 (by omega) hk2⟩
  · intro h
    subst h
    exact kmeansCluster_error_of_small (by simp)

theorem C4_validation_characterised_witness :
    kmeansCluster 2 ([] : List (Vec ℚ)) = .error .tooFewSamples :=
  (C4_validation_characterised [] 2).2 rfl

theorem foldl_min_mem {β : Type} (key : β → α) :
    ∀ (xs : List β) (acc : β),
      xs.foldl (fun b y => if key y < key b then y else b) acc ∈ acc :: xs := by
  intro xs
  induction xs with
  | nil => intro acc; simp
  | cons x xs ih =>
    intro acc
    have h := ih (if key x < key acc then x else acc)
    simp only [List.foldl_cons]
    rcases List.mem_cons.mp h with h1 | h1
    · rw [h1]
      split <;> simp
    · simp [h1]

theorem argminBy_mem {β : Type} {key : β → α} {l : List β} {b : β}
    (h : argminBy key l = some b) : b ∈ l := by
  match l with
  | [] => simp [argminBy] at h
  | x :: xs =>
    simp only [argminBy, Option.some.injEq] at h
    rw [← h]
    exact foldl_min_mem key xs x

theorem argminBy_eq_none {β : Type} {key : β → α} {l : List β}
    (h : argminBy key l = none) : l = [] := by
  match l with
  | [] => rfl
  | x :: xs => simp [argminBy] at h

theorem allPairsList_mem {β : Type} {l : List β} {a b : β}
    (h : (a, b) ∈ allPairsList l) : a ∈ l ∧ b ∈ l := by
  induction l with
  | nil => simp [allPairsList] at h
  | cons x xs ih =>
    simp only [allPairsList, List.mem_append, List.mem_map] at h
    rcases h with ⟨y, hy, he⟩ | h
    · obtain ⟨rfl, rfl⟩ := Prod.mk.injEq .. ▸ he
      exact ⟨List.mem_cons_self .., List.mem_cons_of_mem _ hy⟩
    · obtain ⟨ha, hb⟩ := ih h
      exact ⟨List.mem_cons_of_mem _ ha, List.mem_cons_of_mem _ hb⟩

theorem allPairsList_map_ne {β γ : Type} {f : β → γ} {l : List β}
    (hn : (l.map f).Nodup) {a b : β} (h : (a, b) ∈ allPairsList l) :
    f a ≠ f b := by
  induction l with
  | nil => simp [allPairsList] at h
  | cons x xs ih =>
    simp only [List.map_cons, List.nodup_cons] at hn
    simp only [allPairsList, List.mem_append, List.mem_map] at h
    rcases h with ⟨y, hy, he⟩ | h
    · obtain ⟨rfl, rfl⟩ := Prod.mk.injEq .. ▸ he
      intro hfe
      exact hn.1 (hfe ▸ List.mem_map_of_mem f hy)
    · exact ih hn.2 h

theorem childIds_concat (ms : List MergeEvent) (m : MergeEvent) :
    childIds (ms ++ [m]) = childIds ms ++ [m.right, m.left] := by
  induction ms with
  | nil => rfl
  | cons m' ms ih => simp [childIds, ih]

theorem hacLoop_spec :
    ∀ (fuel n next : Nat) (active : List (HacCluster α)) (ms : List MergeEvent),
      HacInv n next active ms → 1 ≤ active.length → active.length ≤ fuel + 1 →
      MergeTreeOk n (hacLoop fuel next active ms) := by
  intro fuel
  induction fuel with
  | zero =>
    intro n next active ms hinv h1 hle
    obtain ⟨_, hcount, _, _, hmerge, hnodup, _, _⟩ := hinv
    have : active.length = 1 := by omega
    exact ⟨(by omega : ms.length = n - 1), hmerge, hnodup⟩
  | succ fuel ih =>
    intro n next active ms hinv h1 hle
    obtain ⟨hnext, hcount, hids, hfresh, hmerge, hnodup, hunused, hbound⟩ := hinv
    simp only [hacLoop]
    cases hp : argminBy (fun p => wardDist p.1 p.2) (allPairsList active) with
    | none =>
      have : active.length = 1 := by
        have h0 := argminBy_eq_none hp
        match active, h0 with
        | [x], _ => rfl
        | [], _ => simp at h1
        | x :: y :: rest, h0 => simp [allPairsList] at h0
      exact ⟨(by omega : ms.length = n - 1), hmerge, hnodup⟩
    | some ab =>
      obtain ⟨a, b⟩ := ab
      have hmemp : (a, b) ∈ allPairsList active := argminBy_mem hp
      obtain ⟨ha, hb⟩ := allPairsList_mem hmemp
      have hid : a.id ≠ b.id := allPairsList_map_ne hids hmemp
      have hane : b ≠ a := fun h => hid (by rw [h])
      have hnodup_active : active.Nodup := hids.of_map
      have hbmem : b ∈ active.erase a := (List.mem_erase_of_ne hane).mpr hb
      have hlen1 : (active.erase a).length = active.length - 1 :=
        List.length_erase_of_mem ha
      have hlen2 : ((active.erase a).erase b).length = active.length - 2 := by
        rw [List.length_erase_of_mem hbmem, hlen1]
        omega
      have hage2 : 2 ≤ active.length := by
        have := List.length_pos.mpr (List.ne_nil_of_mem hbmem)
        omega
      have hsub2 : ((active.erase a).erase b).Sublist active :=
        (List.erase_sublist b (active.erase a)).trans (List.erase_sublist a active)
      have hsurv : ∀ c ∈ (active.erase a).erase b, c ∈ active :=
        fun c hc => hsub2.subset hc
      have hna : a ∉ (active.erase a).erase b := fun h =>
        hnodup_active.not_mem_erase ((List.erase_sublist b _).subset h)
      have hnb : b ∉ (active.erase a).erase b :=
        (hnodup_active.erase a).not_mem_erase
      have hinj := List.inj_on_of_nodup_map hids
      have hsurv_ne : ∀ c ∈ (active.erase a).erase b, c.id ≠ a.id ∧ c.id ≠ b.id := by
        intro c hc
        constructor
        · intro he
          exact hna (hinj (hsurv c hc) ha he ▸ hc)
        · intro he
          exact hnb (hinj (hsurv c hc) hb he ▸ hc)
      set surv := (active.erase a).erase b with hsurvdef
      set merged := hacMergeOf next a b with hmergeddef
      have hmid : merged.id = next := rfl
      have hinv' : HacInv n (next + 1) (surv ++ [merged]) (ms ++ [⟨next, a.id, b.id⟩]) := by
        refine ⟨?_, ?_, ?_, ?_, ?_, ?_, ?_, ?_⟩
        · simp only [List.length_append, List.length_cons, List.length_nil]
          omega
        · simp only [List.length_append, List.length_cons, List.length_nil]
          omega
        · rw [List.map_append]
          rw [List.nodup_append]
          refine ⟨(hsub2.map HacCluster.id).nodup hids, by simp, ?_⟩
          intro z hz
          simp only [List.map_cons, List.map_nil, List.mem_singleton]
          intro he
          simp only [List.mem_map] at hz
          obtain ⟨c, hc, rfl⟩ := hz
          have := hfresh c (hsurv c hc)
          rw [he, hmid] at this
          omega
        · intro c hc
          rcases List.mem_append.mp hc with h | h
          · have := hfresh c (hsurv c h)
            omega
          · rw [List.mem_singleton.mp h, hmid]
            omega
        · intro i hi
          simp only [List.length_append, List.length_cons, List.length_nil] at hi
          by_cases hlt : i < ms.length
          · have hge : (ms ++ [(⟨next, a.id, b.id⟩ : MergeEvent)])[i] = ms[i] :=
              List.getElem_append_left hlt
            rw [hge]
            exact hmerge i hlt
          · have hieq : i = ms.length := by omega
            have hge : (ms ++ [(⟨next, a.id, b.id⟩ : MergeEvent)])[i] =
                (⟨next, a.id, b.id⟩ : MergeEvent) :=
              List.getElem_concat_length ms _ i hieq _
            rw [hge]
            refine ⟨by simp; omega, ?_, ?_⟩
            · have := hfresh a ha
              simp
              omega
            · have := hfresh b hb
              simp
              omega
        · rw [childIds_concat]
          rw [List.nodup_append]
          refine ⟨hnodup, by simp [hid], ?_⟩
          intro z hz
          simp only [List.mem_cons, List.mem_singleton, List.mem_nil_iff, or_false]
          rintro (rfl | rfl)
          · exact hunused a ha hz
          · exact hunused b hb hz
        · intro c hc
          rw [childIds_concat]
          rw [List.mem_append]
          rintro (h | h)
          · rcases List.mem_append.mp hc with hcs | hcm
            · exact hunused c (hsurv c hcs) h
            · rw [List.mem_singleton.mp hcm, hmid] at h
              exact absurd (hbound _ h) (by omega)
          · simp only [List.mem_cons, List.mem_singleton, List.mem_nil_iff, or_false] at h
            rcases List.mem_append.mp hc with hcs | hcm
            · rcases h with h | h
              · exact (hsurv_ne c hcs).1 h
              · exact (hsurv_ne c hcs).2 h
            · have hcid : c.id = next := by rw [List.mem_singleton.mp hcm, hmid]
              have hia := hfresh a ha
              have hib := hfresh b hb
              rcases h with h | h <;> omega
        · intro x hx
          rw [childIds_concat] at hx
          rcases List.mem_append.mp hx with h | h
          · have := hbound x h
            omega
          · simp only [List.mem_cons, List.mem_singleton, List.mem_nil_iff, or_false] at h
            have hia := hfresh a ha
            have hib := hfresh b hb
            rcases h with rfl | rfl <;> omega
      have hl1 : 1 ≤ (surv ++ [merged]).length := by
        simp only [List.length_append, List.length_cons, List.length_nil]
        omega
      have hl2 : (surv ++ [merged]).length ≤ fuel + 1 := by
        simp only [List.length_append, List.length_cons, List.length_nil]
        omega
      exact ih n (next + 1) (surv ++ [merged]) (ms ++ [⟨next, a.id, b.id⟩]) hinv' hl1 hl2

theorem hacRun_spec (X : List (Vec α)) : MergeTreeOk X.length (hacRun X) := by
  cases hX : X with
  | nil =>
    exact ⟨rfl, fun i hi => absurd hi (by simp [hacRun, hacLoop]), by
      simp [hacRun, hacLoop, childIds]⟩
  | cons x xs =>
    rw [← hX]
    have hlen : ((List.range X.length).map
        (fun i => (⟨i, 1, X.getD i []⟩ : HacCluster α))).length = X.length := by
      simp
    apply hacLoop_spec
    · refine ⟨by simp, by simp, ?_, ?_, by simp [childIds], by simp [childIds],
        by simp [childIds], by simp [childIds]⟩
      · have : ((List.range X.length).map
            (fun i => (⟨i, 1, X.getD i []⟩ : HacCluster α))).map HacCluster.id =
            List.range X.length := by
          rw [List.map_map]
          have hco : (HacCluster.id ∘ fun i => (⟨i, 1, X.getD i []⟩ : HacCluster α)) =
              id := rfl
          rw [hco, List.map_id]
        rw [this]
        exact List.nodup_range X.length
      · intro c hc
        simp only [List.mem_map, List.mem_range] at hc
        obtain ⟨i, hi, rfl⟩ := hc
        simpa using hi
    · rw [hlen]
      rw [hX]
      simp
    · rw [hlen]
      omega

theorem distMatrix_length (X : List (Vec ℝ)) : (distMatrix X).length = X.length := by
  simp [distMatrix]

theorem dotProd_zero_left {x : Vec α} (h : ∀ v ∈ x, v = 0) (y : Vec α) :
    dotProd x y = 0 := by
  induction x generalizing y with
  | nil => simp [dotProd]
  | cons v xs ih =>
    cases y with
    | nil => simp [dotProd]
    | cons w ys =>
      have hv : v = 0 := h v (List.mem_cons_self ..)
      have hrest : ∀ u ∈ xs, u = 0 := fun u hu => h u (List.mem_cons_of_mem _ hu)
      have hr := ih hrest ys
      simp only [dotProd, List.zip_cons_cons, List.map_cons, List.sum_cons] at hr ⊢
      rw [hv, hr, zero_mul, zero_add]

/-- C3: whenever `ClusterMaker.hac` returns a merge list for an
`n`-document matrix, it has exactly `n - 1` merge events, the `i`-th event
carries node id `n + i`, both its children are strictly older nodes (document
leaves `< n` or earlier merge results), and no node id is used as a child
twice. -/
theorem C3_hac_merge_tree_shape (X : List (Vec ℝ)) (k : Nat) (ms : List MergeEvent)
    (h : hacFit k X = .ok ms) :
    ms.length = X.length - 1 ∧
      (∀ i (hi : i < ms.length), ms[i].node_id = X.length + i ∧
         ms[i].right < X.length + i ∧ ms[i].left < X.length + i) ∧
      (childIds ms).Nodup := by
  have hms : ms = hacRun (distMatrix X) := by
    by_cases h0 : X.length = 0
    · simp [hacFit, h0] at h
    by_cases h1 : k = 0 ∨ X.length < k
    · simp [hacFit, h0, h1] at h
    simp only [hacFit, h0, h1, if_false, ite_false, Except.ok.injEq] at h
    exact h.symm
  subst hms
  have hspec := hacRun_spec (distMatrix X)
  rwa [distMatrix_length] at hspec

theorem C3_hac_merge_tree_shape_witness :
    (hacRun (distMatrix R3)).length = 2 := by
  have h3 : R3.length = 3 := by rw [R3]; rfl
  have h : hacFit 1 R3 = .ok (hacRun (distMatrix R3)) := by
    simp [hacFit, h3]
  have := (C3_hac_merge_tree_shape R3 1 _ h).1
  rw [h3] at this
  exact this

/-- C6 counterexample: the first row of `RZ3` is all-zero, yet
`ClusterMaker.hac` does not fail on it: scikit-learn's `cosine_similarity`
replaces the zero norm by 1, the distance matrix is finite, and the fit
returns the merge tree. -/
theorem C6_zero_row_no_failure :
    hacFit 2 RZ3 = .ok (hacRun (distMatrix RZ3)) := by
  have h3 : RZ3.length = 3 := by rw [RZ3]; rfl
  simp [hacFit, h3]

/-- C6 amended: an all-zero row is neither excluded nor reported: for any
valid cluster count the hierarchical clustering succeeds on a matrix
containing an all-zero row, because `cosine_similarity` treats the zero row
as having similarity 0 to every row (its zero norm is replaced by 1), giving
it distance 1 to everything instead of an undefined value. -/
theorem C6_zero_rows_tolerated (X : List (Vec ℝ)) (k : Nat) (x : Vec ℝ)
    (hx : x ∈ X) (hz : ∀ v ∈ x, v = 0) (hk : 1 ≤ k) (hkn : k ≤ X.length) :
    hacFit k X = .ok (hacRun (distMatrix X)) ∧
      ∀ y : Vec ℝ, cosineSimilarity x y = 0 := by
  constructor
  · have h0 : ¬ X.length = 0 := by
      intro h0
      rw [List.length_eq_zero] at h0
      subst h0
      simp at hx
    have h1 : ¬ (k = 0 ∨ X.length < k) := by omega
    simp [hacFit, h0, h1]
  · intro y
    have hz' : ∀ v ∈ l2normalizeRow x, v = 0 := by
      intro v hv
      simp only [l2normalizeRow, List.mem_map] at hv
      obtain ⟨w, hw, rfl⟩ := hv
      rw [hz w hw, zero_div]
    exact dotProd_zero_left hz' _

theorem sumSq_nonneg (x : Vec α) : 0 ≤ sumSq x := by
  apply List.sum_nonneg
  intro v hv
  simp only [List.mem_map] at hv
  obtain ⟨w, _, rfl⟩ := hv
  exact mul_self_nonneg w

theorem sumSq_eq_zero {x : Vec α} (h : sumSq x = 0) : ∀ v ∈ x, v = 0 := by
  induction x with
  | nil => simp
  | cons v xs ih =>
    simp only [sumSq, List.map_cons, List.sum_cons] at h
    have h1 : 0 ≤ v * v := mul_self_nonneg v
    have h2 : 0 ≤ sumSq xs := sumSq_nonneg xs
    simp only [sumSq] at h2
    have hv : v * v = 0 := by linarith
    have hxs : sumSq xs = 0 := by simp only [sumSq]; linarith
    intro u hu
    rcases List.mem_cons.mp hu with rfl | hu
    · exact mul_self_eq_zero.mp hv
    · exact ih hxs u hu

theorem sumSq_map_div (x : Vec α) (c : α) :
    sumSq (x.map (fun v => v / c)) = sumSq x / (c * c) := by
  induction x with
  | nil => simp [sumSq]
  | cons v xs ih =>
    simp only [sumSq, List.map_cons, List.sum_cons] at ih ⊢
    rw [ih, div_mul_div_comm, div_add_div_same]

theorem l2normalizeRow_length (x : Vec ℝ) :
    (l2normalizeRow x).length = x.length := by
  simp [l2normalizeRow]

theorem l2normalizeRow_unit (x : Vec ℝ) :
    sumSq (l2normalizeRow x) = 1 ∨ ∀ v ∈ l2normalizeRow x, v = 0 := by
  by_cases hz : Real.sqrt (sumSq x) = 0
  · right
    intro v hv
    simp only [l2normalizeRow, hz, if_pos, List.mem_map] at hv
    obtain ⟨w, hw, rfl⟩ := hv
    have hx0 : sumSq x = 0 :=
      le_antisymm (Real.sqrt_eq_zero'.mp hz) (sumSq_nonneg x)
    rw [sumSq_eq_zero hx0 w hw]
    simp
  · left
    have h1 : l2normalizeRow x = x.map (fun v => v / Real.sqrt (sumSq x)) := by
      simp [l2normalizeRow, hz]
    rw [h1, sumSq_map_div, Real.mul_self_sqrt (sumSq_nonneg x)]
    exact div_self (fun h => hz (by rw [h, Real.sqrt_zero]))

/-- C5 counterexample: for the 2×5 matrix `R2x5` and `target_dims = 3` we
have `target_dims ≥ min(n_documents, n_features) = 2`, so the claim demands
an InvalidDimensionality failure — but `TruncatedSVD`'s randomized algorithm
only checks `n_components < n_features = 5`, and the stage succeeds. -/
theorem C5_dims_check_counterexample :
    lsaFitTransform svdAny 3 R2x5 =
      .ok ((svdAny.transform 3 R2x5).map l2normalizeRow) := by
  have h5 : nFeatures R2x5 = 5 := by rw [R2x5]; rfl
  simp [lsaFitTransform, h5]

/-- C5 amended: the dimensionality-reduction stage fails with
InvalidDimensionality exactly when `target_dims ≥ n_features` (the document
count plays no part in the check); otherwise it performs the truncated-SVD
projection to `min(target_dims, n_documents)` columns — when `target_dims`
exceeds the document count the randomized SVD silently delivers only
`n_documents` columns — and L2-normalizes every resulting row (a row of
zero norm is left as the zero row rather than scaled to unit norm).  This
holds for every model `svd` of the SVD numeric core. -/
theorem C5_lsa_behaviour (svd : SvdModel) (d : Nat) (X : List (Vec ℝ)) :
    (lsaFitTransform svd d X = .error .invalidDimensionality ↔ nFeatures X ≤ d) ∧
      ∀ Y, lsaFitTransform svd d X = .ok Y →
        Y.length = X.length ∧ (∀ r ∈ Y, r.length = min d X.length) ∧
          ∀ r ∈ Y, sumSq r = 1 ∨ ∀ v ∈ r, v = 0 := by
  constructor
  · constructor
    · intro h
      by_contra hc
      simp [lsaFitTransform, hc] at h
    · intro h
      simp [lsaFitTransform, h]
  · intro Y hY
    have hcond : ¬ nFeatures X ≤ d := by
      by_contra hc
      simp [lsaFitTransform, hc] at hY
    simp only [lsaFitTransform, hcond, if_false, ite_false, Except.ok.injEq] at hY
    subst hY
    refine ⟨by rw [List.length_map, svd.length_transform], ?_, ?_⟩
    · intro r hr
      simp only [List.mem_map] at hr
      obtain ⟨r0, hr0, rfl⟩ := hr
      rw [l2normalizeRow_length]
      exact svd.width_transform d X r0 hr0
    · intro r hr
      simp only [List.mem_map] at hr
      obtain ⟨r0, _, rfl⟩ := hr
      exact l2normalizeRow_unit r0

theorem C5_lsa_behaviour_witness :
    ((svdAny.transform 1 R2x5).map l2normalizeRow).length = R2x5.length :=
  ((C5_lsa_behaviour svdAny 1 R2x5).2 _ (by
    have h5 : nFeatures R2x5 = 5 := by rw [R2x5]; rfl
    simp [lsaFitTransform, h5])).1

/-- C9: for any file store and corpus, two runs of the k-means or hac
operation whose `tfidf_path` arguments are two arbitrary non-`None` values
load the same matrix — the file at the fixed name `'tfidf.pkl'` — and return
identical clustering results; the output does not depend on the path string
beyond whether it is `None`. -/
theorem C9_tfidf_path_value_ignored
    (fsQ : String → List (Vec ℚ)) (exQ : List (Vec ℚ))
    (fsR : String → List (Vec ℝ)) (exR : List (Vec ℝ))
    (s t : String) (k : Nat) :
    loadOrExtract fsQ exQ (some s) = fsQ tfidfArtifactName ∧
      loadOrExtract fsQ exQ (some s) = loadOrExtract fsQ exQ (some t) ∧
      kmeansOp fsQ exQ (some s) k = kmeansOp fsQ exQ (some t) k ∧
      hacOp fsR exR (some s) k = hacOp fsR exR (some t) k :=
  ⟨rfl, rfl, rfl, rfl⟩

theorem pyLowerChar_idem (c : Char) :
    pyLowerChar (pyLowerChar c) = pyLowerChar c := by
  cases hf : upperLowerTable.find? (fun p => p.1 == c) with
  | none => simp [pyLowerChar, hf]
  | some p =>
    have hp : p ∈ upperLowerTable := List.mem_of_find?_eq_some hf
    have hnone : upperLowerTable.find? (fun q => q.1 == p.2) = none := by
      have hall : ∀ p ∈ upperLowerTable,
          upperLowerTable.find? (fun q => q.1 == p.2) = none := by decide
      exact hall p hp
    simp [pyLowerChar, hf, hnone]

theorem pyLower_idem (s : String) : pyLower (pyLower s) = pyLower s := by
  simp only [pyLower, List.map_map]
  exact congrArg String.mk
    (List.map_congr_left (fun c _ => pyLowerChar_idem c))

/-- C7: for every sentence and word segmentation of every input string, the
tokenizer's output tokens all contain an ASCII letter, are all fixed points
of lowercasing, appear in the original word order across sentence boundaries
(the output is a sublist of the lowercased word stream), number at most the
input word count, and an input producing no words — in particular the empty
string — yields the empty token list rather than an error. -/
theorem C7_tokenizer_properties (sentTok wordTok : String → List String)
    (text : String) :
    (∀ t ∈ tokenize sentTok wordTok text, containsAlpha t = true) ∧
      (∀ t ∈ tokenize sentTok wordTok text, pyLower t = t) ∧
      (tokenize sentTok wordTok text).Sublist
        (((sentTok text).map wordTok).flatten.map pyLower) ∧
      (tokenize sentTok wordTok text).length ≤
        ((sentTok text).map wordTok).flatten.length ∧
      (((sentTok text).map wordTok).flatten = [] →
        tokenize sentTok wordTok text = []) := by
  refine ⟨?_, ?_, ?_, ?_, ?_⟩
  · intro t ht
    exact (List.mem_filter.mp ht).2
  · intro t ht
    have := (List.mem_filter.mp ht).1
    simp only [List.mem_map] at this
    obtain ⟨w, _, rfl⟩ := this
    exact pyLower_idem w
  · exact (List.filter_sublist _).trans (List.Sublist.refl _)
  · calc (tokenize sentTok wordTok text).length
        ≤ (((sentTok text).map wordTok).flatten.map pyLower).length :=
          (List.filter_sublist _).length_le
      _ = ((sentTok text).map wordTok).flatten.length := List.length_map _ _
  · intro h
    simp [tokenize, h]

theorem C7_tokenizer_properties_witness :
    tokenize sentSplit wordSplit "" = [] :=
  (C7_tokenizer_properties sentSplit wordSplit "").2.2.2.2 (by decide)

/-- C8 counterexample: the Snowball English stemmer is not idempotent:
`stem ["university"] = ["univers"]` (step 4 strips `iti` in R2), and
stemming that result again gives `["univ"]` (step 1a strips the `s`, step 4
strips `er` in R2), so `stem (stem t) ≠ stem t` at `t = ["university"]`. -/
theorem C8_not_idempotent :
    stem (stem ["university"]) ≠ stem ["university"] := by decide

/-- C8 amended: stemming is not idempotent (see the counterexample), but the
list-level contract holds: `stem` returns a same-length, order-preserving
list in which entry `i` is the Snowball stem of input entry `i`, each token
reduced independently of the others. -/
theorem C8_stem_map_structure (tokens : List String) :
    (stem tokens).length = tokens.length ∧
      ∀ i, i < tokens.length →
        (stem tokens).getD i "" = snowballStem (tokens.getD i "") := by
  refine ⟨List.length_map _ _, ?_⟩
  intro i hi
  have hi' : i < (stem tokens).length := by simpa [stem] using hi
  rw [List.getD_eq_getElem _ _ hi', List.getD_eq_getElem _ _ hi]
  simp [stem]

theorem C8_stem_map_structure_witness :
    (stem ["university", "cats"]).getD 1 "" = snowballStem "cats" :=
  (C8_stem_map_structure ["university", "cats"]).2 1 (by decide)

theorem C6_zero_rows_tolerated_witness :
    hacFit 2 RZ4 = .ok (hacRun (distMatrix RZ4)) :=
  (C6_zero_rows_tolerated RZ4 2 [0, 0]
    (by rw [RZ4]; exact List.mem_cons_self ..)
    (by
      intro v hv
      rcases List.mem_cons.mp hv with h | h
      · exact h
      · simpa using h)
    (by omega)
    (by rw [show RZ4.length = 4 from by rw [RZ4]; rfl]; omega)).1

end WS
